import Mathlib

/-!
# jamescun/rest: the request pipeline of `client.go` and the query contributors of `common.go`

A shallow embedding of the Go package `rest`. Go strings are modelled as Lean
strings (valid UTF-8), `int` as `Int`, a nil-able pointer or interface as an
`Option`.  The standard-library functions the package calls (`path.Join`,
`path.Clean`, `url.Values.Add`, `url.Values.Encode`, `url.QueryEscape`,
`URL.String`, `strconv.Itoa`, `fmt.Errorf`) are embedded from their Go sources.

The collaborators of a client (pre-request handlers, error handlers, codec,
transport) are functions of their arguments; what a handler edits in place
(the request for a `Requestware`; the response, the request and the
destination for an `Errorware`; the destination for `Decode`) is returned by
the function.  Each call the pipeline makes to a
collaborator is recorded, in order, in the trace of the `Outcome`.
-/

namespace Rest

/-! ## Package `path` -/

namespace path

/-- The inner loop of the `..` case of `path.Clean`,
`for out.w > dotdot && out.index(out.w) != '/' { out.w-- }`, entered after
the first `out.w--`.  The buffer is kept reversed (last byte written first), so
`out.w` is the length of the list; `c` is the byte at index `out.w`, the one
removed last. -/
def backtrack (dotdot : Nat) : Char → List Char → List Char
  | _, [] => []
  | c, d :: rout =>
    if dotdot < (d :: rout).length ∧ c ≠ '/' then backtrack dotdot d rout else d :: rout

/-- The main loop `for r < n { switch ... }` of `path.Clean`.  `rooted` is the
flag of the same name, the first list is `path[r:]`, the second the output
buffer reversed, the number is `dotdot`.  The loop is run on a fuel counter;
`none` is returned when the fuel runs out before the input is consumed. -/
def cleanLoop (rooted : Bool) : Nat → List Char → List Char → Nat → Option (List Char)
  | _, [], rout, _ => some rout
  | 0, _ :: _, _, _ => none
  | fuel + 1, c :: rest, rout, dotdot =>
    if c = '/' then
      -- empty path element
      cleanLoop rooted fuel rest rout dotdot
    else if c = '.' ∧ (rest = [] ∨ rest.head? = some '/') then
      -- . element
      cleanLoop rooted fuel rest rout dotdot
    else if c = '.' ∧ rest.head? = some '.' ∧ (rest.tail = [] ∨ rest.tail.head? = some '/') then
      -- .. element: remove to last /
      match rout with
      | d :: rout1 =>
        if dotdot < (d :: rout1).length then
          -- can backtrack
          cleanLoop rooted fuel rest.tail (backtrack dotdot d rout1) dotdot
        else if rooted = false then
          cleanLoop rooted fuel rest.tail ('.' :: '.' :: '/' :: d :: rout1) ((d :: rout1).length + 3)
        else
          cleanLoop rooted fuel rest.tail (d :: rout1) dotdot
      | [] =>
        if rooted = false then
          -- cannot backtrack, but not rooted, so append .. element
          cleanLoop rooted fuel rest.tail ['.', '.'] 2
        else
          cleanLoop rooted fuel rest.tail [] dotdot
    else
      -- real path element: add slash if needed, copy element
      let rout1 :=
        if (rooted = true ∧ rout.length ≠ 1) ∨ (rooted = false ∧ rout.length ≠ 0) then '/' :: rout
        else rout
      cleanLoop rooted fuel (rest.dropWhile (fun x => x ≠ '/'))
        ((c :: rest.takeWhile (fun x => x ≠ '/')).reverse ++ rout1) dotdot

/-- The loop of `path.Clean` run on a non-empty path from its initial state:
`rooted := path[0] == '/'`, and when rooted the buffer holds `/` and `r, dotdot
= 1, 1`.  The fuel exceeds the length of the path. -/
def cleanRun (path : List Char) : Option (List Char) :=
  match path with
  | [] => some []
  | c :: rest =>
    if c = '/' then cleanLoop true (path.length + 1) rest ['/'] 1
    else cleanLoop false (path.length + 1) path [] 0

/-- Go `path.Clean` on the characters of the path: `.` for the empty path and
for an empty result, the buffer otherwise. -/
def cleanChars (path : List Char) : List Char :=
  match path with
  | [] => ['.']
  | _ :: _ =>
    match cleanRun path with
    | some [] => ['.']
    | some rout => rout.reverse
    | none => ['.']

/-- Go `path.Clean`. -/
def Clean (path : String) : String := ⟨cleanChars path.data⟩

/-- The loop body of `path.Join`: `if len(buf) > 0 || e != "" { if len(buf) > 0
{ buf = append(buf, '/') }; buf = append(buf, e...) }`. -/
def joinStep (buf e : List Char) : List Char :=
  if buf ≠ [] ∨ e ≠ [] then (if buf ≠ [] then buf ++ ['/'] else buf) ++ e else buf

/-- Go `path.Join` on character lists. -/
def joinChars (elem : List (List Char)) : List Char :=
  let size := (elem.map List.length).sum
  if size = 0 then [] else cleanChars (elem.foldl joinStep [])

/-- Go `path.Join`. -/
def Join (elem : List String) : String := ⟨joinChars (elem.map String.data)⟩

end path

/-! ## Package `net/url` -/

namespace url

/-- The fields of Go `url.URL` that the package reads or writes; `newURL` builds
its result from a literal naming `Scheme`, `Opaque`, `Host` and `Path`, the
pipeline then assigns `RawQuery`, and every other field keeps its zero value. -/
structure URL where
  Scheme : String
  Opaque : String
  Host : String
  Path : String
  RawQuery : String
  deriving DecidableEq, Repr

/-- Go `url.Values`, a `map[string][]string`, as an association list read
through its first entry for a key. -/
abbrev Values := List (String × List String)

/-- Go map index `v[key]`: the slice stored under `key`, nil when absent. -/
def Values.index (v : Values) (key : String) : List String :=
  match v with
  | [] => []
  | (k, vs) :: rest => if k = key then vs else Values.index rest key

/-- Go map assignment `v[key] = vs`. -/
def Values.assign (v : Values) (key : String) (vs : List String) : Values :=
  match v with
  | [] => [(key, vs)]
  | (k, x) :: rest => if k = key then (key, vs) :: rest else (k, x) :: Values.assign rest key vs

/-- Go `func (v Values) Add(key, value string) { v[key] = append(v[key], value) }`. -/
def Values.Add (v : Values) (key value : String) : Values :=
  v.assign key (v.index key ++ [value])

/-- The escaping modes of `net/url` reached from this package. -/
inductive encoding
  | encodePath
  | encodeHost
  | encodeQueryComponent
  deriving DecidableEq, Repr

/-- Go `shouldEscape(c byte, mode encoding)` for the three modes above. -/
def shouldEscape (c : Nat) (mode : encoding) : Bool :=
  if ('a'.toNat ≤ c ∧ c ≤ 'z'.toNat) ∨ ('A'.toNat ≤ c ∧ c ≤ 'Z'.toNat) ∨
      ('0'.toNat ≤ c ∧ c ≤ '9'.toNat) then
    false
  else if mode = encoding.encodeHost ∧
      c ∈ [33, 36, 38, 39, 40, 41, 42, 43, 44, 59, 61, 58, 91, 93, 60, 62, 34] then
    -- ! $ & (apostrophe) ( ) * + , ; = : [ ] < > (double quote)
    false
  else if c ∈ ['-'.toNat, '_'.toNat, '.'.toNat, '~'.toNat] then
    false
  else if c ∈ ['$'.toNat, '&'.toNat, '+'.toNat, ','.toNat, '/'.toNat, ':'.toNat, ';'.toNat,
      '='.toNat, '?'.toNat, '@'.toNat] then
    match mode with
    | encoding.encodePath => c = '?'.toNat
    | encoding.encodeQueryComponent => true
    | encoding.encodeHost => true
  else
    true

/-- The bytes of a Go string. -/
def bytesOf (s : String) : List Nat :=
  s.data.flatMap (fun c => (String.utf8EncodeChar c).map UInt8.toNat)

/-- The Go table `upperhex = "0123456789ABCDEF"` indexed at a nibble. -/
def upperhex (n : Nat) : Char := "0123456789ABCDEF".data.getD n '0'

/-- Go `escape(s, mode)`: a space becomes `+` in a query component, a byte
that should be escaped becomes `%XX`, any other byte is copied. -/
def escape (s : String) (mode : encoding) : String :=
  ⟨(bytesOf s).flatMap (fun c =>
    if c = ' '.toNat ∧ mode = encoding.encodeQueryComponent then ['+']
    else if shouldEscape c mode then ['%', upperhex (c / 16), upperhex (c % 16)]
    else [Char.ofNat c])⟩

/-- Go `url.QueryEscape`. -/
def QueryEscape (s : String) : String := escape s encoding.encodeQueryComponent

/-- Go string comparison `a <= b`: lexicographic on the bytes. -/
def bytesLE : List Nat → List Nat → Bool
  | [], _ => true
  | _ :: _, [] => false
  | a :: as, b :: bs => a < b || (a == b && bytesLE as bs)

/-- The keys of the map, each once. -/
def Values.keys (v : Values) : List String := (v.map Prod.fst).dedup

/-- Go `func (v Values) Encode() string`: the keys sorted, and for each key
and each of its values `&` (when the buffer is not empty), the escaped key,
`=`, the escaped value. -/
def Values.Encode (v : Values) : String :=
  let keys := (Values.keys v).insertionSort (fun a b => bytesLE (bytesOf a) (bytesOf b) = true)
  keys.foldl (fun buf k =>
    let keyEscaped := QueryEscape k
    (Values.index v k).foldl (fun buf x =>
      (if buf ≠ "" then buf ++ "&" else buf) ++ keyEscaped ++ "=" ++ QueryEscape x) buf) ""

/-- Go `(*URL).EscapedPath` when `RawPath` is empty. -/
def URL.EscapedPath (u : URL) : String :=
  if u.Path = "*" then "*" else escape u.Path encoding.encodePath

/-- Go `(*URL).String` for a URL whose `User`, `Fragment`, `RawPath`,
`ForceQuery` and `OmitHost` fields are zero. -/
def URL.String (u : URL) : String :=
  let buf := if u.Scheme ≠ "" then u.Scheme ++ ":" else ""
  let buf :=
    if u.Opaque ≠ "" then buf ++ u.Opaque
    else
      let buf :=
        if u.Scheme ≠ "" ∨ u.Host ≠ "" then
          let buf := if u.Host ≠ "" ∨ u.Path ≠ "" then buf ++ "//" else buf
          if u.Host ≠ "" then buf ++ escape u.Host encoding.encodeHost else buf
        else buf
      let path := u.EscapedPath
      let buf := if path ≠ "" ∧ path.data.head? ≠ some '/' ∧ u.Host ≠ "" then buf ++ "/" else buf
      let buf :=
        if buf = "" ∧ ':' ∈ path.data.takeWhile (fun x => x ≠ '/') then buf ++ "./" else buf
      buf ++ path
  if u.RawQuery ≠ "" then buf ++ "?" ++ u.RawQuery else buf

end url

/-! ## Package `net/http`: the values the pipeline handles -/

namespace http

/-- Go `http.Header`. -/
abbrev Header := List (String × List String)

/-- The value of `req.Body`, an `io.ReadCloser`; `ρ` is the type of the
streams a caller may pass. -/
inductive Body (ρ : Type)
  /-- The result of `ioutil.NopCloser(strings.NewReader(b))` or
  `ioutil.NopCloser(bytes.NewReader(b))`: a reader over the bytes `b`. -/
  | ofBytes (b : List UInt8)
  /-- An `io.ReadCloser` stored as it is. -/
  | readCloser (r : ρ)
  /-- The result of `ioutil.NopCloser(r)` for an `io.Reader`. -/
  | nopCloser (r : ρ)
  deriving DecidableEq, Repr

/-- The fields of Go `http.Request` set by the pipeline. -/
structure Request (ρ : Type) where
  Method : String
  URL : url.URL
  Proto : String
  ProtoMajor : Int
  ProtoMinor : Int
  Header : Header
  Body : Option (Body ρ)
  ContentLength : Int
  Host : String
  deriving DecidableEq, Repr

/-- The fields of Go `http.Response` the pipeline reads, with the body as the
bytes received. -/
structure Response where
  StatusCode : Int
  Header : Header
  Body : List UInt8
  deriving DecidableEq, Repr

end http

/-! ## Package `rest` -/

/-- A Go `error` value: one built by `fmt.Errorf` carries its message, any
other comes from a collaborator (transport, hook, codec). -/
inductive GoError (ε : Type)
  | errorf (msg : String)
  | ext (e : ε)
  deriving DecidableEq, Repr

/-- Go `strconv.Itoa`: the decimal text of an integer. -/
def Itoa (n : Int) : String := toString n

/-- The Go type `Requestware func(req *http.Request)`: the handler edits the
request in place, which is modelled by returning the edited request. -/
abbrev Requestware (ρ : Type) := http.Request ρ → http.Request ρ

/-- The three objects an error handler is handed through `res`, `req` and
`dst`, which it may edit in place. -/
structure Handed (ρ δ : Type) where
  res : http.Response
  req : http.Request ρ
  dst : δ
  deriving DecidableEq, Repr

/-- The Go type `Errorware func(res *http.Response, req *http.Request, dst
interface{}) error`: the handler returns the response, the request and the
destination as it leaves them, and its error (`none` is nil). -/
abbrev Errorware (ρ δ ε : Type) :=
  http.Response → http.Request ρ → δ → Handed ρ δ × Option (GoError ε)

/-- The Go interface `Encoder`.  `Encode` may edit the request (it is expected
to set a Content-Type header) and returns the bytes or an error; `Decode`
returns the destination as it leaves it and its error. -/
structure Encoder (ρ α δ ε : Type) where
  Encode : http.Request ρ → α → http.Request ρ × Except (GoError ε) (List UInt8)
  Decode : http.Response → δ → δ × Option (GoError ε)

/-- The values implementing the Go interface `QueryParam`: the four of
`common.go`, and any other implementation given by its `Value` method (which
returns a map, not nil). -/
inductive QueryParam
  | Id (id : String)
  | Length (l : Int)
  | Offset (o : Int)
  | param (key value : String)
  | custom (f : url.Values → url.Values)

/-- Go `func Param(key, value string) QueryParam`. -/
def Param (key value : String) : QueryParam := QueryParam.param key value

/-- The `Value` methods of `common.go`. -/
def QueryParam.Value (q : QueryParam) (v : url.Values) : url.Values :=
  match q with
  | QueryParam.Id id => url.Values.Add v "id" id
  | QueryParam.Length l => url.Values.Add v "length" (Itoa l)
  | QueryParam.Offset o => url.Values.Add v "offset" (Itoa o)
  | QueryParam.param key value => url.Values.Add v key value
  | QueryParam.custom f => f v

/-- One element of `src ...interface{}`, by the dynamic type the pipeline
tests for, in the order it tests: a `QueryParam`, a `string`, a `[]byte`, an
`io.ReadCloser`, an `io.Reader`, anything else. -/
inductive Arg (ρ α : Type)
  | query (q : QueryParam)
  | str (b : String)
  | bytes (b : List UInt8)
  | readCloser (b : ρ)
  | reader (b : ρ)
  | other (x : α)

/-- The type assertion `src[i].(QueryParam)`. -/
def Arg.asQueryParam {ρ α : Type} (a : Arg ρ α) : Option QueryParam :=
  match a with
  | Arg.query q => some q
  | _ => none

/-- Go `Client`; `client` is the method `Do` of the `*http.Client`. -/
structure Client (ρ α δ ε : Type) where
  URL : url.URL
  Encoder : Option (Encoder ρ α δ ε)
  reqw : List (Requestware ρ)
  errw : List (Errorware ρ δ ε)
  client : http.Request ρ → Except (GoError ε) http.Response

/-- A call the pipeline makes to a collaborator, in the order made. -/
inductive Event (ρ δ : Type)
  /-- The call `c.reqw[i](req)`. -/
  | before (i : Nat) (req : http.Request ρ)
  /-- The call `c.client.Do(req)`. -/
  | transport (req : http.Request ρ)
  /-- The call `c.errw[i](res, req, dst)`. -/
  | errorHook (i : Nat) (res : http.Response) (req : http.Request ρ) (dst : δ)
  /-- The call `c.Encoder.Decode(res, dst)`. -/
  | decode (res : http.Response) (dst : δ)
  /-- The deferred call `res.Body.Close()`, on the body of the response as
  received. -/
  | close (res : http.Response)
  deriving DecidableEq, Repr

/-- What one call of a `Request` function leaves: the error returned (`none`
is nil), the destination, and the calls made to collaborators. -/
structure Outcome (ρ δ ε : Type) where
  err : Option (GoError ε)
  dst : δ
  trace : List (Event ρ δ)
  deriving DecidableEq, Repr

section
variable {ρ α δ ε : Type}

/-- Go `func (c *Client) Before(fn Requestware)`. -/
def Client.Before (c : Client ρ α δ ε) (fn : Requestware ρ) : Client ρ α δ ε :=
  { c with reqw := c.reqw ++ [fn] }

/-- Go `func (c *Client) Error(fn Errorware)`. -/
def Client.Error (c : Client ρ α δ ε) (fn : Errorware ρ δ ε) : Client ρ α δ ε :=
  { c with errw := c.errw ++ [fn] }

/-- Go `func (c *Client) newURL(urlStr string) *url.URL`. -/
def Client.newURL (c : Client ρ α δ ε) (urlStr : String) : url.URL :=
  { Scheme := c.URL.Scheme
    Opaque := c.URL.Opaque
    Host := c.URL.Host
    Path := path.Join [c.URL.Path, urlStr]
    RawQuery := "" }

/-- The number of bytes of a Go string, `len(b)`. -/
def strLen (b : String) : Nat := (url.bytesOf b).length

/-- The body of the loop `for i := 0; i < len(src); i++` of `Client.Request`
(client.go lines 114-144) on the argument `a`, from the request `req` and the
query values `v`; an error is the early `return` after `Encode` failed. -/
def argStep (c : Client ρ α δ ε) (a : Arg ρ α) (req : http.Request ρ) (v : url.Values) :
    Except (GoError ε) (http.Request ρ × url.Values) :=
  match a.asQueryParam with
  | some q => Except.ok (req, q.Value v)
  | none =>
    if req.Body.isSome then
      match a with
      | Arg.query _ => Except.ok (req, v)
      | Arg.str b =>
        Except.ok ({ req with
          Body := some (http.Body.ofBytes b.toUTF8.data.toList), ContentLength := strLen b }, v)
      | Arg.bytes b =>
        Except.ok ({ req with Body := some (http.Body.ofBytes b), ContentLength := b.length }, v)
      | Arg.readCloser b => Except.ok ({ req with Body := some (http.Body.readCloser b) }, v)
      | Arg.reader b => Except.ok ({ req with Body := some (http.Body.nopCloser b) }, v)
      | Arg.other x =>
        match c.Encoder with
        | some enc =>
          match enc.Encode req x with
          | (_, Except.error err) => Except.error err
          | (req1, Except.ok data) =>
            Except.ok ({ req1 with
              Body := some (http.Body.ofBytes data), ContentLength := data.length }, v)
        | none => Except.ok (req, v)
    else Except.ok (req, v)

/-- The loop `for i := 0; i < len(src); i++` of `Client.Request`. -/
def argLoop (c : Client ρ α δ ε) :
    List (Arg ρ α) → http.Request ρ → url.Values → Except (GoError ε) (http.Request ρ × url.Values)
  | [], req, v => Except.ok (req, v)
  | a :: src, req, v =>
    match argStep c a req v with
    | Except.error err => Except.error err
    | Except.ok (req1, v1) => argLoop c src req1 v1

/-- Lines 99-147 of `Client.Request`: the request literal, the loop over the
arguments and `req.URL.RawQuery = v.Encode()`. -/
def Client.compose (c : Client ρ α δ ε) (method urlStr : String) (src : List (Arg ρ α)) :
    Except (GoError ε) (http.Request ρ) :=
  let u := c.newURL urlStr
  let req : http.Request ρ :=
    { Method := method
      URL := u
      Proto := "HTTP/1.1"
      ProtoMajor := 1
      ProtoMinor := 1
      Header := []
      Body := none
      ContentLength := 0
      Host := u.Host }
  match argLoop c src req [] with
  | Except.error err => Except.error err
  | Except.ok (req1, v) => Except.ok { req1 with URL := { req1.URL with RawQuery := v.Encode } }

/-- The loop `for i := 0; i < len(c.reqw); i++ { c.reqw[i](req) }`, from index
`i` on. -/
def runReqw : List (Requestware ρ) → Nat → http.Request ρ → List (Event ρ δ) →
    http.Request ρ × List (Event ρ δ)
  | [], _, req, tr => (req, tr)
  | h :: hs, i, req, tr => runReqw hs (i + 1) (h req) (tr ++ [Event.before i req])

/-- The loop over `c.errw` of lines 163-168, from index `i` on, on the objects
`s` behind `res`, `req` and `dst`: each handler is called in turn on the
objects as the one before left them, and the first error that is not nil is
returned. -/
def runErrw : List (Errorware ρ δ ε) → Nat → Handed ρ δ → List (Event ρ δ) →
    Option (GoError ε) × Handed ρ δ × List (Event ρ δ)
  | [], _, s, tr => (none, s, tr)
  | h :: hs, i, s, tr =>
    match h s.res s.req s.dst with
    | (s1, some err) => (some err, s1, tr ++ [Event.errorHook i s.res s.req s.dst])
    | (s1, none) => runErrw hs (i + 1) s1 (tr ++ [Event.errorHook i s.res s.req s.dst])

/-- Lines 161-180 of `Client.Request`, what follows `defer res.Body.Close()`.
The status is tested on the response as received (line 162); the message of
line 170 is formatted from `res.StatusCode` as the handlers left it. -/
def triage (c : Client ρ α δ ε) (res : http.Response) (req : http.Request ρ) (dst : δ)
    (tr : List (Event ρ δ)) : Outcome ρ δ ε :=
  if res.StatusCode < 200 ∨ res.StatusCode > 299 then
    match runErrw c.errw 0 { res := res, req := req, dst := dst } tr with
    | (some err, s, tr1) => { err := some err, dst := s.dst, trace := tr1 }
    | (none, s, tr1) =>
      { err := some (GoError.errorf ("http status " ++ Itoa s.res.StatusCode))
        dst := s.dst
        trace := tr1 }
  else
    match c.Encoder with
    | some enc =>
      match enc.Decode res dst with
      | (dst1, err) => { err := err, dst := dst1, trace := tr ++ [Event.decode res dst] }
    | none => { err := none, dst := dst, trace := tr }

/-- The function returned by Go `func (c *Client) Request(method, urlStr
string) Request`, applied to `dst` and `src`. -/
def Client.Request (c : Client ρ α δ ε) (method urlStr : String) (dst : δ)
    (src : List (Arg ρ α)) : Outcome ρ δ ε :=
  match c.compose method urlStr src with
  | Except.error err => { err := some err, dst := dst, trace := [] }
  | Except.ok req0 =>
    -- execute requestware
    match runReqw c.reqw 0 req0 [] with
    | (req, tr) =>
      -- execute request
      match c.client req with
      | Except.error err => { err := some err, dst := dst, trace := tr ++ [Event.transport req] }
      | Except.ok res =>
        let out := triage c res req dst (tr ++ [Event.transport req])
        { out with trace := out.trace ++ [Event.close res] }

/-! ### Vocabulary of the statements -/

/-- The request as the handlers `hs`, applied in order, leave it. -/
def applyReqw (hs : List (Requestware ρ)) (req : http.Request ρ) : http.Request ρ :=
  hs.foldl (fun r h => h r) req

/-- The response, the request and the destination as the handlers `hs`,
called in order from `s`, leave them. -/
def handedAfter (hs : List (Errorware ρ δ ε)) (s : Handed ρ δ) : Handed ρ δ :=
  hs.foldl (fun t h => (h t.res t.req t.dst).1) s

/-- Each handler of `hs`, called in turn on the objects left by the one
before it, returns nil. -/
def allNil : List (Errorware ρ δ ε) → Handed ρ δ → Prop
  | [], _ => True
  | h :: hs, s => (h s.res s.req s.dst).2 = none ∧ allNil hs (h s.res s.req s.dst).1

/-- The calls of the pre-request handlers `hs` in order, each once: handler
`j` receives the request as left by the handlers before it. -/
def beforeEvents (hs : List (Requestware ρ)) (req0 : http.Request ρ) : List (Event ρ δ) :=
  (List.range hs.length).map (fun j => Event.before j (applyReqw (hs.take j) req0))

/-- The calls of the first `n` error handlers of `hs` in order, each once:
handler `j` receives the response, the request and the destination as left by
the handlers before it. -/
def errorEvents (hs : List (Errorware ρ δ ε)) (n : Nat) (s : Handed ρ δ) : List (Event ρ δ) :=
  (List.range n).map (fun j =>
    Event.errorHook j (handedAfter (hs.take j) s).res (handedAfter (hs.take j) s).req
      (handedAfter (hs.take j) s).dst)

/-- The request on the URL of `newURL` with the given query string, with no
header and no body. -/
def plainRequest (c : Client ρ α δ ε) (method urlStr query : String) : http.Request ρ :=
  { Method := method
    URL := { c.newURL urlStr with RawQuery := query }
    Proto := "HTTP/1.1"
    ProtoMajor := 1
    ProtoMinor := 1
    Header := []
    Body := none
    ContentLength := 0
    Host := c.URL.Host }

/-- The query values obtained by applying the `QueryParam`s among the
arguments, in argument order, to an empty `url.Values`. -/
def queryOf (src : List (Arg ρ α)) : url.Values :=
  (src.filterMap Arg.asQueryParam).foldl (fun v q => q.Value v) []

end

/-! ### Example clients -/

/-- The base URL `https://example.org` as `url.Parse` returns it: scheme
`https`, host `example.org`, empty path (compare `TestClientNew` and
`TestClientString`). -/
def exampleURL : url.URL :=
  { Scheme := "https", Opaque := "", Host := "example.org", Path := "", RawQuery := "" }

/-- A codec in the manner of `EncoderJSON`: `Encode` sets the Content-Type
header and returns the bytes of the text, `Decode` stores the response body. -/
def textCodec : Encoder Unit String (List UInt8) String :=
  { Encode := fun req x =>
      ({ req with Header := [("Content-Type", ["application/json; charset=utf-8"])] },
        Except.ok x.toUTF8.data.toList)
    Decode := fun res _ => (res.Body, none) }

/-- A client on `exampleURL` whose transport gives the same answer to every
request. -/
def exampleClient (enc : Option (Encoder Unit String (List UInt8) String))
    (reqw : List (Requestware Unit)) (errw : List (Errorware Unit (List UInt8) String))
    (answer : Except (GoError String) http.Response) : Client Unit String (List UInt8) String :=
  { URL := exampleURL, Encoder := enc, reqw := reqw, errw := errw, client := fun _ => answer }

/-- A pre-request handler adding one header. -/
def setHeader (key value : String) : Requestware Unit :=
  fun req => { req with Header := req.Header ++ [(key, [value])] }

/-- An error handler that returns nil and leaves what it is handed. -/
def passHook : Errorware Unit (List UInt8) String :=
  fun res req dst => ({ res := res, req := req, dst := dst }, none)

/-- An error handler that stores the response body and fails. -/
def failHook (msg : String) : Errorware Unit (List UInt8) String :=
  fun res req _ => ({ res := res, req := req, dst := res.Body }, some (GoError.ext msg))

/-- An error handler that writes `res.StatusCode = status` and returns nil. -/
def statusHook (status : Int) : Errorware Unit (List UInt8) String :=
  fun res req dst => ({ res := { res with StatusCode := status }, req := req, dst := dst }, none)

/-- The request the pipeline builds on `exampleURL` for a method, a cleaned
path and an encoded query: no header, no body, content length zero. -/
def bodylessRequest (method path query : String) : http.Request Unit :=
  { Method := method
    URL := { Scheme := "https", Opaque := "", Host := "example.org", Path := path, RawQuery := query }
    Proto := "HTTP/1.1"
    ProtoMajor := 1
    ProtoMinor := 1
    Header := []
    Body := none
    ContentLength := 0
    Host := "example.org" }

/-- A response with the given status and body, without headers. -/
def answerOf (status : Int) (body : List UInt8) : http.Response :=
  { StatusCode := status, Header := [], Body := body }

/-! ## Properties of `path.Clean` and `path.Join` -/

namespace path

/-- No two consecutive separators. -/
def NoDbl (l : List Char) : Prop := List.Chain' (fun a b => ¬(a = '/' ∧ b = '/')) l

/-- The buffer (reversed) ends in a separator only when it is the root alone. -/
def Trail (rooted : Bool) (rout : List Char) : Prop :=
  rout.head? = some '/' → rooted = true ∧ rout = ['/']

/-- The pieces of a path between its separators, the empty ones included. -/
def splitSlash : List Char → List (List Char)
  | [] => [[]]
  | c :: rest =>
    if c = '/' then [] :: splitSlash rest
    else
      match splitSlash rest with
      | [] => [[c]]
      | s :: ss => (c :: s) :: ss

/-- The elements of a path: its pieces that are not empty, in order. -/
def elements (p : List Char) : List (List Char) :=
  (splitSlash p).filter (fun s => s ≠ [])

/-- No element of the path is `.` or `..`. -/
def dotFree (p : List Char) : Prop := ['.'] ∉ elements p ∧ ['.', '.'] ∉ elements p

/-- The invariant of the main loop of `path.Clean`. -/
structure Inv (rooted : Bool) (rout : List Char) (dotdot : Nat) : Prop where
  nodbl : NoDbl rout
  trail : Trail rooted rout
  le : dotdot ≤ rout.length
  base : Trail rooted (rout.drop (rout.length - dotdot))

theorem backtrack_inv (rooted : Bool) (dotdot : Nat) :
    ∀ (rout : List Char) (c : Char), NoDbl (c :: rout) → dotdot ≤ rout.length →
      Trail rooted (rout.drop (rout.length - dotdot)) →
      Inv rooted (backtrack dotdot c rout) dotdot := by
  intro rout
  induction rout with
  | nil =>
    intro c _ hle hb
    simp only [backtrack]
    exact ⟨List.chain'_nil, by simp [Trail], hle, by simp [Trail]⟩
  | cons d rout ih =>
    intro c hn hle hb
    have hn1 : NoDbl (d :: rout) := List.Chain'.tail hn
    have hcd : ¬(c = '/' ∧ d = '/') := (List.chain'_cons.1 hn).1
    simp only [backtrack]
    split
    · rename_i h
      have hle1 : dotdot ≤ rout.length := by
        have := h.1
        simp only [List.length_cons] at this
        omega
      apply ih d hn1 hle1
      have e : (d :: rout).length - dotdot = (rout.length - dotdot) + 1 := by
        simp only [List.length_cons]; omega
      rw [e, List.drop_succ_cons] at hb
      exact hb
    · rename_i h
      refine ⟨hn1, ?_, hle, hb⟩
      by_cases hlt : dotdot < (d :: rout).length
      · have hc : c = '/' := by
          by_contra hc
          exact h ⟨hlt, hc⟩
        intro hd
        simp only [List.head?_cons, Option.some.injEq] at hd
        exact absurd ⟨hc, hd⟩ hcd
      · have e : (d :: rout).length - dotdot = 0 := by omega
        rw [e, List.drop_zero] at hb
        exact hb

theorem drop_base (pre rout : List Char) (dotdot : Nat) (h : dotdot ≤ rout.length) :
    (pre ++ rout).drop ((pre ++ rout).length - dotdot) = rout.drop (rout.length - dotdot) := by
  have e : (pre ++ rout).length - dotdot = pre.length + (rout.length - dotdot) := by
    simp only [List.length_append]; omega
  rw [e, List.drop_append]

theorem nodbl_append (e r : List Char) (he : ∀ x ∈ e, x ≠ '/') (hr : NoDbl r) :
    NoDbl (e ++ r) := by
  induction e with
  | nil => simpa using hr
  | cons x e ih =>
    have hx : x ≠ '/' := he x (List.mem_cons_self x e)
    have := ih (fun y hy => he y (List.mem_cons_of_mem x hy))
    rw [List.cons_append]
    exact List.Chain'.cons' this (fun y _ h => hx h.1)

theorem head_append_ne (e r : List Char) (he : ∀ x ∈ e, x ≠ '/') (hne : e ≠ []) :
    (e ++ r).head? ≠ some '/' := by
  cases e with
  | nil => exact absurd rfl hne
  | cons x e =>
    simp only [List.cons_append, List.head?_cons, ne_eq, Option.some.injEq]
    exact he x (List.mem_cons_self x e)

theorem elem_inv (rooted : Bool) (c : Char) (rest rout : List Char) (dotdot : Nat)
    (hc : c ≠ '/') (hi : Inv rooted rout dotdot) :
    Inv rooted ((c :: rest.takeWhile (fun x => x ≠ '/')).reverse ++
      (if (rooted = true ∧ rout.length ≠ 1) ∨ (rooted = false ∧ rout.length ≠ 0) then '/' :: rout
       else rout)) dotdot := by
  have he : ∀ x ∈ (c :: rest.takeWhile (fun x => x ≠ '/')).reverse, x ≠ '/' := by
    intro x hx
    rw [List.mem_reverse, List.mem_cons] at hx
    rcases hx with rfl | hx
    · exact hc
    · simpa using List.mem_takeWhile_imp hx
  have hne : (c :: rest.takeWhile (fun x => x ≠ '/')).reverse ≠ [] := by simp
  generalize (c :: rest.takeWhile (fun x => x ≠ '/')).reverse = e at he hne
  have htr : Trail rooted (e ++ (if (rooted = true ∧ rout.length ≠ 1) ∨
      (rooted = false ∧ rout.length ≠ 0) then '/' :: rout else rout)) := by
    intro h
    exact absurd h (head_append_ne e _ he hne)
  split
  · rename_i hcond
    have hhead : ∀ y ∈ rout.head?, ¬('/' = '/' ∧ y = '/') := by
      intro y hy hyy
      have hy1 : rout.head? = some '/' := by rw [← hyy.2]; exact hy
      obtain ⟨hr, hl⟩ := hi.trail hy1
      rcases hcond with h | h
      · exact h.2 (by rw [hl]; rfl)
      · rw [hr] at h; exact absurd h.1 (by decide)
    have hn : NoDbl ('/' :: rout) := List.Chain'.cons' hi.nodbl hhead
    refine ⟨nodbl_append e _ he hn, ?_, ?_, ?_⟩
    · rw [if_pos hcond] at htr; exact htr
    · simp only [List.length_append, List.length_cons]; have := hi.le; omega
    · have e2 : e ++ '/' :: rout = (e ++ ['/']) ++ rout := by simp
      rw [e2, drop_base _ _ _ hi.le]
      exact hi.base
  · rename_i hcond
    refine ⟨nodbl_append e _ he hi.nodbl, ?_, ?_, ?_⟩
    · rw [if_neg hcond] at htr; exact htr
    · simp only [List.length_append]; have := hi.le; omega
    · rw [drop_base _ _ _ hi.le]
      exact hi.base

theorem cleanLoop_inv (rooted : Bool) :
    ∀ (fuel : Nat) (p rout : List Char) (dotdot : Nat), p.length ≤ fuel → Inv rooted rout dotdot →
      ∃ r, cleanLoop rooted fuel p rout dotdot = some r ∧ NoDbl r ∧ Trail rooted r := by
  intro fuel
  induction fuel with
  | zero =>
    intro p rout dotdot hp hi
    cases p with
    | nil => exact ⟨rout, by simp [cleanLoop], hi.nodbl, hi.trail⟩
    | cons c rest => simp at hp
  | succ fuel ih =>
    intro p rout dotdot hp hi
    cases p with
    | nil => exact ⟨rout, by simp [cleanLoop], hi.nodbl, hi.trail⟩
    | cons c rest =>
      have hrest : rest.length ≤ fuel := by simpa using hp
      have htail : rest.tail.length ≤ fuel := by
        rw [List.length_tail]; omega
      have hdrop : (rest.dropWhile (fun x => x ≠ '/')).length ≤ fuel :=
        le_trans (List.dropWhile_suffix _).length_le hrest
      simp only [cleanLoop]
      split
      · exact ih rest rout dotdot hrest hi
      · rename_i hc
        split
        · exact ih rest rout dotdot hrest hi
        · split
          · split
            · rename_i d rout1
              split
              · apply ih _ _ _ htail
                have hle : dotdot ≤ rout1.length := by
                  rename_i h; simp only [List.length_cons] at h; omega
                apply backtrack_inv rooted dotdot rout1 d hi.nodbl hle
                have hb := hi.base
                have e : (d :: rout1).length - dotdot = (rout1.length - dotdot) + 1 := by
                  simp only [List.length_cons]; omega
                rw [e, List.drop_succ_cons] at hb
                exact hb
              · split
                · rename_i hr
                  apply ih _ _ _ htail
                  have hd : d ≠ '/' := by
                    intro hd
                    have := (hi.trail (by simp [hd])).1
                    rw [hr] at this
                    exact absurd this (by decide)
                  have hn : NoDbl ('.' :: '.' :: '/' :: d :: rout1) := by
                    apply List.Chain'.cons' _ (by simp)
                    apply List.Chain'.cons' _ (by simp)
                    apply List.Chain'.cons' hi.nodbl
                    intro y hy h
                    simp only [List.head?_cons, Option.mem_def, Option.some.injEq] at hy
                    exact hd (hy ▸ h.2)
                  refine ⟨hn, by simp [Trail], by simp, ?_⟩
                  have e : ('.' :: '.' :: '/' :: d :: rout1).length - ((d :: rout1).length + 3) = 0 := by
                    simp
                  rw [e, List.drop_zero]
                  simp [Trail]
                · exact ih _ _ _ htail hi
            · split
              · apply ih _ _ _ htail
                refine ⟨by simp [NoDbl], by simp [Trail], by simp, by simp [Trail]⟩
              · exact ih _ _ _ htail hi
          · exact ih _ _ _ hdrop (elem_inv rooted c rest rout dotdot hc hi)

theorem cleanRun_inv (p : List Char) :
    ∃ r, cleanRun p = some r ∧ NoDbl r ∧ (r.head? = some '/' → r = ['/']) := by
  cases p with
  | nil => exact ⟨[], rfl, List.chain'_nil, by simp⟩
  | cons c rest =>
    simp only [cleanRun]
    split
    · have hi : Inv true ['/'] 1 := ⟨by simp [NoDbl], by simp [Trail], by simp, by simp [Trail]⟩
      obtain ⟨r, h1, h2, h3⟩ := cleanLoop_inv true ((c :: rest).length + 1) rest ['/'] 1
        (by simp only [List.length_cons]; omega) hi
      exact ⟨r, h1, h2, fun h => (h3 h).2⟩
    · have hi : Inv false [] 0 := ⟨by simp [NoDbl], by simp [Trail], by simp, by simp [Trail]⟩
      obtain ⟨r, h1, h2, h3⟩ := cleanLoop_inv false ((c :: rest).length + 1) (c :: rest) [] 0
        (by omega) hi
      exact ⟨r, h1, h2, fun h => absurd (h3 h).1 (by decide)⟩

theorem nodbl_no_pair (l : List Char) (h : NoDbl l) : ¬ (['/', '/'] <:+: l) := by
  intro hinf
  have := List.Chain'.infix h hinf
  simp [List.chain'_cons] at this

theorem nodbl_reverse (l : List Char) (h : NoDbl l) : NoDbl l.reverse := by
  unfold NoDbl at *
  rw [List.chain'_reverse]
  refine List.Chain'.imp ?_ h
  intro a b hab hba
  exact hab ⟨hba.2, hba.1⟩

/-- The result of `path.Clean` has no two consecutive separators and ends in
a separator only when it is the root alone. -/
theorem cleanChars_normal (p : List Char) :
    ¬ (['/', '/'] <:+: cleanChars p) ∧
      ((cleanChars p).getLast? = some '/' → cleanChars p = ['/']) := by
  have hdot : ¬ (['/', '/'] <:+: ['.']) := nodbl_no_pair _ (by simp [NoDbl])
  cases p with
  | nil => exact ⟨hdot, by simp [cleanChars]⟩
  | cons c rest =>
    obtain ⟨r, h1, h2, h3⟩ := cleanRun_inv (c :: rest)
    simp only [cleanChars, h1]
    cases r with
    | nil => exact ⟨hdot, by simp⟩
    | cons d r =>
      refine ⟨nodbl_no_pair _ (nodbl_reverse _ h2), ?_⟩
      intro hl
      rw [List.getLast?_reverse] at hl
      rw [h3 hl]
      rfl

theorem joinChars_pair (b r : List Char) :
    joinChars [b, r] =
      if b = [] ∧ r = [] then [] else if b = [] then cleanChars r else cleanChars (b ++ '/' :: r) := by
  by_cases hb : b = []
  · by_cases hr : r = []
    · simp [joinChars, hb, hr]
    · simp [joinChars, joinStep, hb, hr]
  · simp [joinChars, joinStep, hb]

theorem joinChars_normal (b r : List Char) :
    ¬ (['/', '/'] <:+: joinChars [b, r]) ∧
      ((joinChars [b, r]).getLast? = some '/' → joinChars [b, r] = ['/']) := by
  rw [joinChars_pair]
  split
  · exact ⟨nodbl_no_pair _ (by simp [NoDbl]), by simp⟩
  · split
    · exact cleanChars_normal r
    · exact cleanChars_normal _

theorem splitSlash_ne_nil (p : List Char) : splitSlash p ≠ [] := by
  cases p with
  | nil => simp [splitSlash]
  | cons c rest =>
    simp only [splitSlash]
    split
    · simp
    · split <;> simp

theorem splitSlash_append (a b : List Char) :
    splitSlash (a ++ '/' :: b) = splitSlash a ++ splitSlash b := by
  induction a with
  | nil => simp [splitSlash]
  | cons c a ih =>
    rw [List.cons_append]
    simp only [splitSlash]
    split
    · rw [ih]; rfl
    · rw [ih]
      cases h : splitSlash a with
      | nil => exact absurd h (splitSlash_ne_nil a)
      | cons s ss => rfl

theorem elements_append (a b : List Char) :
    elements (a ++ '/' :: b) = elements a ++ elements b := by
  simp [elements, splitSlash_append]

theorem elements_nil : elements [] = [] := by
  simp [elements, splitSlash]

theorem elements_slash (b : List Char) : elements ('/' :: b) = elements b := by
  have := elements_append [] b
  simpa [elements_nil] using this

theorem splitSlash_plain (e : List Char) (he : ∀ x ∈ e, x ≠ '/') : splitSlash e = [e] := by
  induction e with
  | nil => rfl
  | cons c e ih =>
    have hc : c ≠ '/' := he c (List.mem_cons_self c e)
    simp only [splitSlash, if_neg hc, ih (fun x hx => he x (List.mem_cons_of_mem c hx))]

theorem elements_plain (e : List Char) (he : ∀ x ∈ e, x ≠ '/') (hne : e ≠ []) :
    elements e = [e] := by
  simp [elements, splitSlash_plain e he, hne]

theorem elements_cons (c : Char) (rest : List Char) (hc : c ≠ '/') :
    elements (c :: rest) =
      (c :: rest.takeWhile (fun x => x ≠ '/')) :: elements (rest.dropWhile (fun x => x ≠ '/')) := by
  have he : ∀ x ∈ c :: rest.takeWhile (fun x => x ≠ '/'), x ≠ '/' := by
    intro x hx
    rcases List.mem_cons.1 hx with rfl | hx
    · exact hc
    · simpa using List.mem_takeWhile_imp hx
  have hsplit : c :: rest =
      (c :: rest.takeWhile (fun x => x ≠ '/')) ++ rest.dropWhile (fun x => x ≠ '/') := by
    rw [List.cons_append, List.takeWhile_append_dropWhile]
  cases hq : rest.dropWhile (fun x => x ≠ '/') with
  | nil =>
    rw [hq, List.append_nil] at hsplit
    rw [elements_nil]
    conv_lhs => rw [hsplit]
    exact elements_plain _ he (by simp)
  | cons d q =>
    have hd : d = '/' := by
      have := List.head_dropWhile_not (fun x => decide (x ≠ '/')) rest (by rw [hq]; simp)
      simp only [hq, List.head_cons] at this
      simpa using this
    rw [hq, hd] at hsplit
    conv_lhs => rw [hsplit]
    rw [elements_append, elements_plain _ he (by simp), hd, elements_slash]
    rfl

theorem dotFree_of_cons (c : Char) (rest : List Char) (hc : c ≠ '/') (h : dotFree (c :: rest)) :
    c :: rest.takeWhile (fun x => x ≠ '/') ≠ ['.'] ∧
      c :: rest.takeWhile (fun x => x ≠ '/') ≠ ['.', '.'] ∧
      dotFree (rest.dropWhile (fun x => x ≠ '/')) := by
  unfold dotFree at h
  rw [elements_cons c rest hc] at h
  simp only [List.mem_cons, not_or] at h
  exact ⟨fun e => h.1.1 e.symm, fun e => h.2.1 e.symm, h.1.2, h.2.2⟩

theorem cleanLoop_elements (rooted : Bool) :
    ∀ (fuel : Nat) (p rout : List Char) (dotdot : Nat), p.length ≤ fuel → dotFree p →
      (rooted = true → rout.getLast? = some '/') →
      ∃ r, cleanLoop rooted fuel p rout dotdot = some r ∧
        elements r.reverse = elements rout.reverse ++ elements p ∧
        rout.length ≤ r.length := by
  intro fuel
  induction fuel with
  | zero =>
    intro p rout dotdot hp _ _
    cases p with
    | nil => exact ⟨rout, by simp [cleanLoop], by simp [elements_nil], le_refl _⟩
    | cons c rest => simp at hp
  | succ fuel ih =>
    intro p rout dotdot hp hfree hroot
    cases p with
    | nil => exact ⟨rout, by simp [cleanLoop], by simp [elements_nil], le_refl _⟩
    | cons c rest =>
      have hrest : rest.length ≤ fuel := by simpa using hp
      have hdrop : (rest.dropWhile (fun x => x ≠ '/')).length ≤ fuel :=
        le_trans (List.dropWhile_suffix _).length_le hrest
      simp only [cleanLoop]
      split
      · rename_i hc
        have hfree1 : dotFree rest := by
          unfold dotFree at hfree ⊢
          rw [hc, elements_slash] at hfree
          exact hfree
        obtain ⟨r, h1, h2, h3⟩ := ih rest rout dotdot hrest hfree1 hroot
        exact ⟨r, h1, by rw [h2, hc, elements_slash], h3⟩
      · rename_i hc
        obtain ⟨hne1, hne2, hfree1⟩ := dotFree_of_cons c rest hc hfree
        split
        · rename_i hdot
          exfalso
          apply hne1
          rcases hdot with ⟨h1, h2 | h2⟩
          · simp [h1, h2]
          · cases rest with
            | nil => simp [h1]
            | cons d rest1 =>
              simp only [List.head?_cons, Option.some.injEq] at h2
              simp [h1, h2]
        · split
          · rename_i hdd
            exfalso
            apply hne2
            obtain ⟨h1, h2, h3⟩ := hdd
            cases rest with
            | nil => simp at h2
            | cons d rest1 =>
              simp only [List.head?_cons, Option.some.injEq] at h2
              simp only [List.tail_cons] at h3
              rcases h3 with h3 | h3
              · simp [h1, h2, h3]
              · cases rest1 with
                | nil => simp [h1, h2]
                | cons d1 rest2 =>
                  simp only [List.head?_cons, Option.some.injEq] at h3
                  simp [h1, h2, h3]
          · have hplain : ∀ x ∈ c :: rest.takeWhile (fun x => x ≠ '/'), x ≠ '/' := by
              intro x hx
              rcases List.mem_cons.1 hx with rfl | hx
              · exact hc
              · simpa using List.mem_takeWhile_imp hx
            have hroot1 : rooted = true →
                ((c :: rest.takeWhile (fun x => x ≠ '/')).reverse ++
                  (if (rooted = true ∧ rout.length ≠ 1) ∨ (rooted = false ∧ rout.length ≠ 0) then
                    '/' :: rout else rout)).getLast? = some '/' := by
              intro hr
              have hl := hroot hr
              have hne : rout ≠ [] := by
                intro h; rw [h] at hl; simp at hl
              split
              · rw [List.getLast?_append_of_ne_nil _ (by simp)]
                cases rout with
                | nil => exact absurd rfl hne
                | cons d rs => rw [List.getLast?_cons_cons]; exact hl
              · rw [List.getLast?_append_of_ne_nil _ hne]; exact hl
            obtain ⟨r, h1, h2, h3⟩ := ih _ _ dotdot hdrop hfree1 hroot1
            refine ⟨r, h1, ?_, ?_⟩
            · rw [h2, elements_cons c rest hc]
              suffices hs : elements ((c :: rest.takeWhile (fun x => x ≠ '/')).reverse ++
                  (if (rooted = true ∧ rout.length ≠ 1) ∨ (rooted = false ∧ rout.length ≠ 0) then
                    '/' :: rout else rout)).reverse =
                  elements rout.reverse ++ [c :: rest.takeWhile (fun x => x ≠ '/')] by
                rw [hs]; simp
              split
              · rw [List.reverse_append, List.reverse_reverse, List.reverse_cons,
                  List.append_assoc, List.singleton_append, elements_append,
                  elements_plain _ hplain (by simp)]
              · rename_i hcond
                rw [List.reverse_append, List.reverse_reverse]
                cases hr : rooted with
                | true =>
                  have hl := hroot hr
                  have hlen : rout.length = 1 := by
                    by_contra hlen
                    exact hcond (Or.inl ⟨hr, hlen⟩)
                  obtain ⟨x, hx⟩ := List.length_eq_one.1 hlen
                  rw [hx] at hl ⊢
                  simp only [List.getLast?_singleton, Option.some.injEq] at hl
                  rw [hl, List.reverse_singleton, List.singleton_append, elements_slash,
                    elements_plain _ hplain (by simp)]
                  rfl
                | false =>
                  have hlen : rout.length = 0 := by
                    by_contra hlen
                    exact hcond (Or.inr ⟨hr, hlen⟩)
                  rw [List.length_eq_zero.1 hlen, List.reverse_nil, List.nil_append, elements_nil,
                    List.nil_append]
                  exact elements_plain _ hplain (by simp)
            · refine le_trans ?_ h3
              split <;> simp only [List.length_append, List.length_cons] <;> omega

theorem cleanChars_elements (p : List Char) (hne : p ≠ []) (hfree : dotFree p) :
    elements (cleanChars p) = elements p := by
  cases p with
  | nil => exact absurd rfl hne
  | cons c rest =>
    by_cases hc : c = '/'
    · have hfree1 : dotFree rest := by
        unfold dotFree at hfree ⊢
        rw [hc, elements_slash] at hfree
        exact hfree
      obtain ⟨r, h1, h2, h3⟩ := cleanLoop_elements true ((c :: rest).length + 1) rest ['/'] 1
        (by simp only [List.length_cons]; omega) hfree1 (fun _ => rfl)
      have hrun : cleanRun (c :: rest) = some r := by
        simp only [cleanRun, if_pos hc, h1]
      simp only [cleanChars, hrun]
      cases r with
      | nil => simp at h3
      | cons d r =>
        simp only
        rw [h2, hc, elements_slash]
        simp [elements_slash, elements_nil]
    · obtain ⟨r, h1, h2, _⟩ := cleanLoop_elements false ((c :: rest).length + 1) (c :: rest) [] 0
        (by omega) hfree (fun h => absurd h (by decide))
      have hrun : cleanRun (c :: rest) = some r := by
        simp only [cleanRun, if_neg hc, h1]
      simp only [cleanChars, hrun]
      cases r with
      | nil =>
        exfalso
        rw [elements_cons c rest hc] at h2
        simp [elements_nil] at h2
      | cons d r =>
        simp only
        rw [h2]
        simp [elements_nil]

theorem dotFree_append (a b : List Char) (ha : dotFree a) (hb : dotFree b) :
    dotFree (a ++ '/' :: b) := by
  unfold dotFree at *
  rw [elements_append]
  simp only [List.mem_append, not_or]
  exact ⟨⟨ha.1, hb.1⟩, ⟨ha.2, hb.2⟩⟩

/-- On paths without `.` and `..` elements the join has the elements of the
first path followed by those of the second: none is lost, none is merged with
its neighbour. -/
theorem joinChars_elements (b r : List Char) (hb : dotFree b) (hr : dotFree r) :
    elements (joinChars [b, r]) = elements b ++ elements r := by
  rw [joinChars_pair]
  split
  · rename_i h
    simp [h.1, h.2, elements_nil]
  · rename_i h
    split
    · rename_i hbn
      have hrn : r ≠ [] := fun e => h ⟨hbn, e⟩
      rw [cleanChars_elements r hrn hr, hbn, elements_nil, List.nil_append]
    · rw [cleanChars_elements _ (by simp) (dotFree_append b r hb hr), elements_append]

theorem data_ne_nil (s : String) (h : s ≠ "") : s.data ≠ [] := by
  intro hd
  apply h
  cases s
  simp_all

end path

/-! ## Properties of the pipeline -/

section
variable {ρ α δ ε : Type}

theorem range_map_succ {β : Type} (f : Nat → β) (n : Nat) :
    (List.range (n + 1)).map f = f 0 :: (List.range n).map (fun j => f (j + 1)) := by
  rw [List.range_succ_eq_map, List.map_cons, List.map_map]
  rfl

theorem argLoop_bodyless (c : Client ρ α δ ε) :
    ∀ (src : List (Arg ρ α)) (req : http.Request ρ) (v : url.Values), req.Body = none →
      argLoop c src req v =
        Except.ok (req, (src.filterMap Arg.asQueryParam).foldl (fun v q => q.Value v) v) := by
  intro src
  induction src with
  | nil => intro req v _; rfl
  | cons a src ih =>
    intro req v hb
    cases a <;> simp [argLoop, argStep, Arg.asQueryParam, hb, ih]

/-- Lines 99-147 never return early: the request they build has no body. -/
theorem compose_eq (c : Client ρ α δ ε) (method urlStr : String) (src : List (Arg ρ α)) :
    c.compose method urlStr src =
      Except.ok (plainRequest c method urlStr (queryOf src).Encode) := by
  simp only [Client.compose]
  rw [argLoop_bodyless c src _ _ rfl]
  rfl

theorem runReqw_eq (hs : List (Requestware ρ)) :
    ∀ (i : Nat) (req : http.Request ρ) (tr : List (Event ρ δ)),
      runReqw hs i req tr =
        (applyReqw hs req,
          tr ++ (List.range hs.length).map
            (fun j => Event.before (i + j) (applyReqw (hs.take j) req))) := by
  induction hs with
  | nil => intro i req tr; simp [runReqw, applyReqw]
  | cons h hs ih =>
    intro i req tr
    have hidx : ∀ j, i + 1 + j = i + (j + 1) := fun j => by omega
    simp only [runReqw, ih, List.length_cons, range_map_succ, applyReqw, List.foldl_cons,
      List.take_succ_cons, List.take_zero, List.foldl_nil, List.append_assoc, List.singleton_append,
      Nat.add_zero, hidx]

theorem runErrw_cons_nil (h : Errorware ρ δ ε) (hs : List (Errorware ρ δ ε)) (i : Nat)
    (s : Handed ρ δ) (tr : List (Event ρ δ)) (hh : (h s.res s.req s.dst).2 = none) :
    runErrw (h :: hs) i s tr =
      runErrw hs (i + 1) (h s.res s.req s.dst).1 (tr ++ [Event.errorHook i s.res s.req s.dst]) := by
  simp only [runErrw]
  split <;> simp_all

theorem runErrw_cons_some (h : Errorware ρ δ ε) (hs : List (Errorware ρ δ ε)) (i : Nat)
    (s : Handed ρ δ) (tr : List (Event ρ δ)) (err : GoError ε)
    (hh : (h s.res s.req s.dst).2 = some err) :
    runErrw (h :: hs) i s tr =
      (some err, (h s.res s.req s.dst).1, tr ++ [Event.errorHook i s.res s.req s.dst]) := by
  simp only [runErrw]
  split <;> simp_all

theorem runErrw_pass (hs : List (Errorware ρ δ ε)) :
    ∀ (i : Nat) (s : Handed ρ δ) (tr : List (Event ρ δ)), allNil hs s →
      runErrw hs i s tr =
        (none, handedAfter hs s,
          tr ++ (List.range hs.length).map
            (fun j => Event.errorHook (i + j) (handedAfter (hs.take j) s).res
              (handedAfter (hs.take j) s).req (handedAfter (hs.take j) s).dst)) := by
  induction hs with
  | nil => intro i s tr _; simp [runErrw, handedAfter]
  | cons h hs ih =>
    intro i s tr hn
    have hidx : ∀ j, i + 1 + j = i + (j + 1) := fun j => by omega
    rw [runErrw_cons_nil h hs i s tr hn.1, ih (i + 1) _ _ hn.2]
    simp only [List.length_cons, range_map_succ, handedAfter, List.foldl_cons,
      List.take_succ_cons, List.take_zero, List.foldl_nil, List.append_assoc, List.singleton_append,
      Nat.add_zero, hidx]

theorem runErrw_fail (pre post : List (Errorware ρ δ ε)) (h : Errorware ρ δ ε)
    (err : GoError ε) :
    ∀ (i : Nat) (s : Handed ρ δ) (tr : List (Event ρ δ)), allNil pre s →
      (h (handedAfter pre s).res (handedAfter pre s).req (handedAfter pre s).dst).2 = some err →
      runErrw (pre ++ h :: post) i s tr =
        (some err,
          (h (handedAfter pre s).res (handedAfter pre s).req (handedAfter pre s).dst).1,
          tr ++ (List.range (pre.length + 1)).map
            (fun j => Event.errorHook (i + j) (handedAfter ((pre ++ h :: post).take j) s).res
              (handedAfter ((pre ++ h :: post).take j) s).req
              (handedAfter ((pre ++ h :: post).take j) s).dst)) := by
  induction pre with
  | nil =>
    intro i s tr _ hf
    rw [List.nil_append, runErrw_cons_some h post i s tr err hf]
    simp [handedAfter, range_map_succ]
  | cons g pre ih =>
    intro i s tr hn hf
    have hidx : ∀ j, i + 1 + j = i + (j + 1) := fun j => by omega
    rw [List.cons_append, runErrw_cons_nil g _ i s tr hn.1, ih (i + 1) _ _ hn.2 hf]
    simp only [List.length_cons, range_map_succ _ (pre.length + 1), handedAfter, List.foldl_cons,
      List.take_succ_cons, List.take_zero, List.foldl_nil, List.append_assoc, List.singleton_append,
      Nat.add_zero, hidx, List.cons_append, List.nil_append]

theorem Request_eq (c : Client ρ α δ ε) (method urlStr : String) (dst : δ)
    (src : List (Arg ρ α)) (req0 : http.Request ρ)
    (hc : c.compose method urlStr src = Except.ok req0) :
    c.Request method urlStr dst src =
      match c.client (applyReqw c.reqw req0) with
      | Except.error err =>
        { err := some err, dst := dst
          trace := beforeEvents c.reqw req0 ++ [Event.transport (applyReqw c.reqw req0)] }
      | Except.ok res =>
        { triage c res (applyReqw c.reqw req0) dst
            (beforeEvents c.reqw req0 ++ [Event.transport (applyReqw c.reqw req0)]) with
          trace := (triage c res (applyReqw c.reqw req0) dst
            (beforeEvents c.reqw req0 ++ [Event.transport (applyReqw c.reqw req0)])).trace ++
              [Event.close res] } := by
  simp only [Client.Request, hc, runReqw_eq, List.nil_append, Nat.zero_add, beforeEvents]

theorem Request_failed (c : Client ρ α δ ε) (method urlStr : String) (dst : δ)
    (src : List (Arg ρ α)) (req0 : http.Request ρ) (err : GoError ε)
    (hc : c.compose method urlStr src = Except.ok req0)
    (hdo : c.client (applyReqw c.reqw req0) = Except.error err) :
    c.Request method urlStr dst src =
      { err := some err, dst := dst
        trace := beforeEvents c.reqw req0 ++ [Event.transport (applyReqw c.reqw req0)] } := by
  rw [Request_eq c method urlStr dst src req0 hc, hdo]

theorem Request_answered (c : Client ρ α δ ε) (method urlStr : String) (dst : δ)
    (src : List (Arg ρ α)) (req0 : http.Request ρ) (res : http.Response)
    (hc : c.compose method urlStr src = Except.ok req0)
    (hdo : c.client (applyReqw c.reqw req0) = Except.ok res) :
    c.Request method urlStr dst src =
      { triage c res (applyReqw c.reqw req0) dst
          (beforeEvents c.reqw req0 ++ [Event.transport (applyReqw c.reqw req0)]) with
        trace := (triage c res (applyReqw c.reqw req0) dst
          (beforeEvents c.reqw req0 ++ [Event.transport (applyReqw c.reqw req0)])).trace ++
            [Event.close res] } := by
  rw [Request_eq c method urlStr dst src req0 hc, hdo]

theorem triage_pass (c : Client ρ α δ ε) (res : http.Response) (req : http.Request ρ) (dst : δ)
    (tr : List (Event ρ δ)) (hst : res.StatusCode < 200 ∨ 299 < res.StatusCode)
    (hnil : allNil c.errw { res := res, req := req, dst := dst }) :
    triage c res req dst tr =
      { err := some (GoError.errorf ("http status " ++
          Itoa (handedAfter c.errw { res := res, req := req, dst := dst }).res.StatusCode))
        dst := (handedAfter c.errw { res := res, req := req, dst := dst }).dst
        trace := tr ++ errorEvents c.errw c.errw.length { res := res, req := req, dst := dst } } := by
  have hst1 : res.StatusCode < 200 ∨ res.StatusCode > 299 := hst
  simp only [triage, if_pos hst1, runErrw_pass c.errw 0 _ tr hnil, Nat.zero_add,
    errorEvents]

theorem triage_fail (c : Client ρ α δ ε) (res : http.Response) (req : http.Request ρ) (dst : δ)
    (tr : List (Event ρ δ)) (pre post : List (Errorware ρ δ ε)) (h : Errorware ρ δ ε)
    (err : GoError ε) (hst : res.StatusCode < 200 ∨ 299 < res.StatusCode)
    (hsplit : c.errw = pre ++ h :: post)
    (hpre : allNil pre { res := res, req := req, dst := dst })
    (hfail : (h (handedAfter pre { res := res, req := req, dst := dst }).res
      (handedAfter pre { res := res, req := req, dst := dst }).req
      (handedAfter pre { res := res, req := req, dst := dst }).dst).2 = some err) :
    triage c res req dst tr =
      { err := some err
        dst := (h (handedAfter pre { res := res, req := req, dst := dst }).res
          (handedAfter pre { res := res, req := req, dst := dst }).req
          (handedAfter pre { res := res, req := req, dst := dst }).dst).1.dst
        trace := tr ++ errorEvents c.errw (pre.length + 1) { res := res, req := req, dst := dst } } := by
  have hst1 : res.StatusCode < 200 ∨ res.StatusCode > 299 := hst
  simp only [triage, if_pos hst1, hsplit,
    runErrw_fail pre post h err 0 _ tr hpre hfail, Nat.zero_add, errorEvents]

theorem triage_success (c : Client ρ α δ ε) (res : http.Response) (req : http.Request ρ)
    (dst : δ) (tr : List (Event ρ δ)) (hst : 200 ≤ res.StatusCode ∧ res.StatusCode ≤ 299) :
    triage c res req dst tr =
      match c.Encoder with
      | some enc =>
        { err := (enc.Decode res dst).2, dst := (enc.Decode res dst).1
          trace := tr ++ [Event.decode res dst] }
      | none => { err := none, dst := dst, trace := tr } := by
  have hst1 : ¬ (res.StatusCode < 200 ∨ res.StatusCode > 299) := by omega
  simp only [triage, if_neg hst1]

theorem runErrw_trace (hs : List (Errorware ρ δ ε)) :
    ∀ (i : Nat) (s : Handed ρ δ) (tr : List (Event ρ δ)),
      ∃ more, (runErrw hs i s tr).2.2 = tr ++ more ∧
        ∀ e ∈ more, ∃ j r q d, e = Event.errorHook j r q d := by
  induction hs with
  | nil => intro i s tr; exact ⟨[], by simp [runErrw], by simp⟩
  | cons h hs ih =>
    intro i s tr
    cases hh : (h s.res s.req s.dst).2 with
    | none =>
      rw [runErrw_cons_nil h hs i s tr hh]
      obtain ⟨more, h1, h2⟩ := ih (i + 1) (h s.res s.req s.dst).1
        (tr ++ [Event.errorHook i s.res s.req s.dst])
      refine ⟨Event.errorHook i s.res s.req s.dst :: more, by simp [h1], ?_⟩
      intro e he
      rcases List.mem_cons.1 he with rfl | he
      · exact ⟨i, s.res, s.req, s.dst, rfl⟩
      · exact h2 e he
    | some err =>
      rw [runErrw_cons_some h hs i s tr err hh]
      refine ⟨[Event.errorHook i s.res s.req s.dst], rfl, ?_⟩
      intro e he
      rw [List.mem_singleton] at he
      exact ⟨i, s.res, s.req, s.dst, he⟩

theorem triage_trace (c : Client ρ α δ ε) (res : http.Response) (req : http.Request ρ)
    (dst : δ) (tr : List (Event ρ δ)) :
    ∃ more, (triage c res req dst tr).trace = tr ++ more ∧
      ∀ e ∈ more, (∃ j r q d, e = Event.errorHook j r q d) ∨ e = Event.decode res dst := by
  simp only [triage]
  split
  · obtain ⟨more, h1, h2⟩ := runErrw_trace c.errw 0 { res := res, req := req, dst := dst } tr
    refine ⟨more, ?_, fun e he => Or.inl (h2 e he)⟩
    split <;> simp_all
  · split
    · exact ⟨[Event.decode res dst], rfl, fun e he => Or.inr (List.mem_singleton.1 he)⟩
    · exact ⟨[], by simp, by simp⟩

theorem Request_trace (c : Client ρ α δ ε) (method urlStr : String) (dst : δ)
    (src : List (Arg ρ α)) (req0 : http.Request ρ)
    (hc : c.compose method urlStr src = Except.ok req0) :
    ∃ rest, (c.Request method urlStr dst src).trace =
        beforeEvents c.reqw req0 ++ Event.transport (applyReqw c.reqw req0) :: rest ∧
      ∀ e ∈ rest, (∃ j r q d, e = Event.errorHook j r q d) ∨
        (∃ res, e = Event.decode res dst) ∨ (∃ res, e = Event.close res) := by
  cases hdo : c.client (applyReqw c.reqw req0) with
  | error err =>
    rw [Request_failed c method urlStr dst src req0 err hc hdo]
    exact ⟨[], rfl, by simp⟩
  | ok res =>
    rw [Request_answered c method urlStr dst src req0 res hc hdo]
    obtain ⟨more, h1, h2⟩ := triage_trace c res (applyReqw c.reqw req0) dst
      (beforeEvents c.reqw req0 ++ [Event.transport (applyReqw c.reqw req0)])
    refine ⟨more ++ [Event.close res], by simp [h1], ?_⟩
    intro e he
    rcases List.mem_append.1 he with hm | hm
    · rcases h2 e hm with hj | hj
      · exact Or.inl hj
      · exact Or.inr (Or.inl ⟨res, hj⟩)
    · exact Or.inr (Or.inr ⟨res, List.mem_singleton.1 hm⟩)

/-! ## The claims -/

/-- C5: each `Before` call appends its handler after the earlier ones, and
every call of a `Request` function composes the request (query string and
body, lines 99-147) and then calls each registered pre-request handler once,
in registration order, each on the request as the one before left it; the
next call is the transport, on the request as the last handler left it, and
no pre-request handler is called after that. -/
theorem before_hooks_once_in_order (c : Client ρ α δ ε) (hs : List (Requestware ρ))
    (method urlStr : String) (dst : δ) (src : List (Arg ρ α)) :
    (∀ fn, (c.Before fn).reqw = c.reqw ++ [fn]) ∧
    (hs.foldl Client.Before c).reqw = c.reqw ++ hs ∧
    ∃ req0 rest, c.compose method urlStr src = Except.ok req0 ∧
      (c.Request method urlStr dst src).trace =
        beforeEvents c.reqw req0 ++ Event.transport (applyReqw c.reqw req0) :: rest ∧
      ∀ i r, Event.before i r ∉ rest := by
  refine ⟨fun fn => rfl, ?_, ?_⟩
  · induction hs generalizing c with
    | nil => simp
    | cons h hs ih => rw [List.foldl_cons, ih]; simp [Client.Before]
  · obtain ⟨rest, h1, h2⟩ := Request_trace c method urlStr dst src _ (compose_eq c method urlStr src)
    refine ⟨_, rest, compose_eq c method urlStr src, h1, ?_⟩
    intro i r hmem
    rcases h2 _ hmem with ⟨j, r1, q1, d, hj⟩ | ⟨res, hj⟩ | ⟨res, hj⟩ <;> cases hj

/-- C6, as the code has it: when the transport fails, the call returns the
failure of the transport and leaves the destination; by then every registered
pre-request handler has been called, once and in order, and the call of the
transport is the last one: no error handler is called and `Decode` is not. -/
theorem transport_failure_returned (c : Client ρ α δ ε) (method urlStr : String) (dst : δ)
    (src : List (Arg ρ α)) (req0 : http.Request ρ) (err : GoError ε)
    (hc : c.compose method urlStr src = Except.ok req0)
    (hdo : c.client (applyReqw c.reqw req0) = Except.error err) :
    (c.Request method urlStr dst src).err = some err ∧
    (c.Request method urlStr dst src).dst = dst ∧
    (c.Request method urlStr dst src).trace =
      beforeEvents c.reqw req0 ++ [Event.transport (applyReqw c.reqw req0)] ∧
    (∀ j res req d, Event.errorHook j res req d ∉ (c.Request method urlStr dst src).trace) ∧
    (∀ res d, Event.decode res d ∉ (c.Request method urlStr dst src).trace) := by
  rw [Request_failed c method urlStr dst src req0 err hc hdo]
  refine ⟨rfl, rfl, rfl, ?_, ?_⟩
  · intro j res req d
    simp [beforeEvents]
  · intro res d
    simp [beforeEvents]

/-- C2, as the code has it: when the response has a status below 200 or
above 299 and no error handler is registered, or each registered one returns
nil, the call returns the error built by `fmt.Errorf("http status %d",
res.StatusCode)` from the status the response holds once the handlers have
run, and `Decode` is not called.  When no handler is registered, or the
handlers leave the status of the response as received, the message ends in
the decimal text of the status received (`http status 404` for 404, and
likewise for 199 and 300). -/
theorem generic_status_error (c : Client ρ α δ ε) (method urlStr : String) (dst : δ)
    (src : List (Arg ρ α)) (req0 : http.Request ρ) (res : http.Response)
    (hc : c.compose method urlStr src = Except.ok req0)
    (hdo : c.client (applyReqw c.reqw req0) = Except.ok res)
    (hst : res.StatusCode < 200 ∨ 299 < res.StatusCode)
    (hnil : c.errw = [] ∨
      allNil c.errw { res := res, req := applyReqw c.reqw req0, dst := dst }) :
    (c.Request method urlStr dst src).err =
      some (GoError.errorf ("http status " ++ toString
        (handedAfter c.errw
          { res := res, req := applyReqw c.reqw req0, dst := dst }).res.StatusCode)) ∧
    ((c.errw = [] ∨
        (handedAfter c.errw
          { res := res, req := applyReqw c.reqw req0, dst := dst }).res.StatusCode =
            res.StatusCode) →
      (c.Request method urlStr dst src).err =
        some (GoError.errorf ("http status " ++ toString res.StatusCode)) ∧
      (res.StatusCode = 404 →
        (c.Request method urlStr dst src).err = some (GoError.errorf "http status 404")) ∧
      (res.StatusCode = 199 →
        (c.Request method urlStr dst src).err = some (GoError.errorf "http status 199")) ∧
      (res.StatusCode = 300 →
        (c.Request method urlStr dst src).err = some (GoError.errorf "http status 300"))) ∧
    (∀ r d, Event.decode r d ∉ (c.Request method urlStr dst src).trace) := by
  have hn : allNil c.errw { res := res, req := applyReqw c.reqw req0, dst := dst } := by
    rcases hnil with h | h
    · rw [h]; trivial
    · exact h
  rw [Request_answered c method urlStr dst src req0 res hc hdo,
    triage_pass c res _ dst _ hst hn]
  refine ⟨rfl, ?_, ?_⟩
  · intro hsame
    have hcode : (handedAfter c.errw
        { res := res, req := applyReqw c.reqw req0, dst := dst }).res.StatusCode =
          res.StatusCode := by
      rcases hsame with h | h
      · rw [h]; rfl
      · exact h
    simp only [hcode]
    refine ⟨rfl, ?_, ?_, ?_⟩
    · intro h; simp only [h]; rfl
    · intro h; simp only [h]; rfl
    · intro h; simp only [h]; rfl
  · intro r d
    simp [beforeEvents, errorEvents]

/-- C3: each `Error` call appends its handler after the earlier ones.  When
the response has a status below 200 or above 299, the error handlers are
called in registration order, each with the response, the request sent and
the destination (as the handlers before it left them).  If the handlers
before `h` return nil and `h` returns the error `err`, the call returns `err`,
the handlers after `h` are not called and neither is `Decode`; if all return
nil, all have been called, in order. -/
theorem first_error_hook_failure_returned (c : Client ρ α δ ε) (method urlStr : String)
    (dst : δ) (src : List (Arg ρ α)) (req0 : http.Request ρ) (res : http.Response)
    (hc : c.compose method urlStr src = Except.ok req0)
    (hdo : c.client (applyReqw c.reqw req0) = Except.ok res)
    (hst : res.StatusCode < 200 ∨ 299 < res.StatusCode) :
    (∀ fn, (c.Error fn).errw = c.errw ++ [fn]) ∧
    (∀ pre h post err, c.errw = pre ++ h :: post →
      allNil pre { res := res, req := applyReqw c.reqw req0, dst := dst } →
      (h (handedAfter pre { res := res, req := applyReqw c.reqw req0, dst := dst }).res
        (handedAfter pre { res := res, req := applyReqw c.reqw req0, dst := dst }).req
        (handedAfter pre { res := res, req := applyReqw c.reqw req0, dst := dst }).dst).2 =
          some err →
      (c.Request method urlStr dst src).err = some err ∧
      (c.Request method urlStr dst src).trace =
        beforeEvents c.reqw req0 ++ [Event.transport (applyReqw c.reqw req0)] ++
          errorEvents c.errw (pre.length + 1)
            { res := res, req := applyReqw c.reqw req0, dst := dst } ++
          [Event.close res] ∧
      ∀ j r q d, pre.length < j →
        Event.errorHook j r q d ∉ (c.Request method urlStr dst src).trace) ∧
    (allNil c.errw { res := res, req := applyReqw c.reqw req0, dst := dst } →
      (c.Request method urlStr dst src).trace =
        beforeEvents c.reqw req0 ++ [Event.transport (applyReqw c.reqw req0)] ++
          errorEvents c.errw c.errw.length
            { res := res, req := applyReqw c.reqw req0, dst := dst } ++
          [Event.close res]) := by
  refine ⟨fun fn => rfl, ?_, ?_⟩
  · intro pre h post err hsplit hpre hfail
    rw [Request_answered c method urlStr dst src req0 res hc hdo,
      triage_fail c res _ dst _ pre post h err hst hsplit hpre hfail]
    refine ⟨rfl, rfl, ?_⟩
    intro j r q d hj
    simp only [beforeEvents, errorEvents, List.mem_append, List.mem_map, List.mem_range,
      List.mem_singleton, not_or, not_exists, not_and]
    refine ⟨⟨⟨?_, ?_⟩, ?_⟩, ?_⟩
    · intro x _ hx; cases hx
    · intro hx; cases hx
    · intro x hx he
      cases he
      omega
    · intro hx; cases hx
  · intro hn
    rw [Request_answered c method urlStr dst src req0 res hc hdo,
      triage_pass c res _ dst _ hst hn]

/-- C4: when the response has a status from 200 to 299, no error handler is
called; without a codec the call returns nil, leaves the destination and
calls no `Decode`; with a codec it calls `Decode` on the response and the
destination, once, and returns what `Decode` returns. -/
theorem success_status_decodes (c : Client ρ α δ ε) (method urlStr : String) (dst : δ)
    (src : List (Arg ρ α)) (req0 : http.Request ρ) (res : http.Response)
    (hc : c.compose method urlStr src = Except.ok req0)
    (hdo : c.client (applyReqw c.reqw req0) = Except.ok res)
    (hst : 200 ≤ res.StatusCode ∧ res.StatusCode ≤ 299) :
    (∀ j r q d, Event.errorHook j r q d ∉ (c.Request method urlStr dst src).trace) ∧
    (c.Encoder = none →
      (c.Request method urlStr dst src).err = none ∧
      (c.Request method urlStr dst src).dst = dst ∧
      ∀ r d, Event.decode r d ∉ (c.Request method urlStr dst src).trace) ∧
    (∀ enc, c.Encoder = some enc →
      (c.Request method urlStr dst src).err = (enc.Decode res dst).2 ∧
      (c.Request method urlStr dst src).dst = (enc.Decode res dst).1 ∧
      (c.Request method urlStr dst src).trace =
        beforeEvents c.reqw req0 ++
          [Event.transport (applyReqw c.reqw req0), Event.decode res dst, Event.close res]) := by
  rw [Request_answered c method urlStr dst src req0 res hc hdo,
    triage_success c res _ dst _ hst]
  refine ⟨?_, ?_, ?_⟩
  · intro j r q d
    cases c.Encoder <;> simp [beforeEvents]
  · intro hnone
    rw [hnone]
    refine ⟨rfl, rfl, ?_⟩
    intro r d
    simp [beforeEvents]
  · intro enc hsome
    rw [hsome]
    refine ⟨rfl, rfl, ?_⟩
    simp

end

/-- Witness of C6 (as the code has it): one pre-request handler, a transport
that fails. -/
theorem transport_failure_returned_witness :
    (Client.Request (exampleClient none [setHeader "X-Token" "t"] [passHook]
      (Except.error (GoError.ext "dial timeout"))) "GET" "/ip" [] []).err =
        some (GoError.ext "dial timeout") :=
  (transport_failure_returned (exampleClient none [setHeader "X-Token" "t"] [passHook]
    (Except.error (GoError.ext "dial timeout"))) "GET" "/ip" [] [] _ (GoError.ext "dial timeout")
    (compose_eq _ _ _ _) rfl).1

/-- C6 as stated fails: with one pre-request handler registered and a
transport that fails, the call returns the failure of the transport, and the
handler has been called, before the transport was. -/
theorem before_hook_ran_when_transport_failed :
    Client.Request (exampleClient none [setHeader "X-Token" "t"] []
      (Except.error (GoError.ext "dial timeout"))) "GET" "/ip" [] [] =
      { err := some (GoError.ext "dial timeout")
        dst := []
        trace :=
          [Event.before 0 (bodylessRequest "GET" "/ip" ""),
           Event.transport
             { bodylessRequest "GET" "/ip" "" with Header := [("X-Token", ["t"])] }] } := by
  decide

/-- Witness of C2 (as the code has it): status 404, one error handler that
returns nil and leaves the response. -/
theorem generic_status_error_witness :
    (Client.Request (exampleClient (some textCodec) [] [passHook]
      (Except.ok (answerOf 404 []))) "GET" "/missing" [] []).err =
        some (GoError.errorf "http status 404") :=
  ((generic_status_error (exampleClient (some textCodec) [] [passHook]
    (Except.ok (answerOf 404 []))) "GET" "/missing" [] [] _ (answerOf 404 [])
    (compose_eq _ _ _ _) rfl (by decide) (Or.inr ⟨rfl, trivial⟩)).2.1 (Or.inr rfl)).2.1 rfl

/-- C2 as stated fails: the transport answers 404 and the one error handler
registered writes `res.StatusCode = 200` and returns nil; the call returns the
generic error with the message `http status 200`, not `http status 404`. -/
theorem status_rewritten_by_error_hook :
    Client.Request (exampleClient none [] [statusHook 200]
      (Except.ok (answerOf 404 []))) "GET" "/missing" [] [] =
      { err := some (GoError.errorf "http status 200")
        dst := []
        trace :=
          [Event.transport (bodylessRequest "GET" "/missing" ""),
           Event.errorHook 0 (answerOf 404 []) (bodylessRequest "GET" "/missing" "") [],
           Event.close (answerOf 404 [])] } ∧
    (statusHook 200 (answerOf 404 []) (bodylessRequest "GET" "/missing" "") []).2 = none := by
  decide

/-- Witness of C3: status 500, three error handlers of which the second
fails. -/
theorem first_error_hook_failure_returned_witness :
    (Client.Request (exampleClient (some textCodec) [] [passHook, failHook "quota", failHook "late"]
      (Except.ok (answerOf 500 [7]))) "GET" "/ip" [] []).err = some (GoError.ext "quota") :=
  ((first_error_hook_failure_returned
    (exampleClient (some textCodec) [] [passHook, failHook "quota", failHook "late"]
      (Except.ok (answerOf 500 [7]))) "GET" "/ip" [] [] _ (answerOf 500 [7])
    (compose_eq _ _ _ _) rfl (by decide)).2.1
      [passHook] (failHook "quota") [failHook "late"] (GoError.ext "quota") rfl
      ⟨rfl, trivial⟩ rfl).1

/-- Witness of C4: status 299 and a codec. -/
theorem success_status_decodes_witness :
    (Client.Request (exampleClient (some textCodec) [] [failHook "quota"]
      (Except.ok (answerOf 299 [7]))) "GET" "/ip" [] []).dst = [7] :=
  ((success_status_decodes (exampleClient (some textCodec) [] [failHook "quota"]
    (Except.ok (answerOf 299 [7]))) "GET" "/ip" [] [] _ (answerOf 299 [7])
    (compose_eq _ _ _ _) rfl (by decide)).2.2 textCodec rfl).2.1

section
variable {ρ α δ ε : Type}

theorem index_assign_same (v : url.Values) (key : String) (vs : List String) :
    url.Values.index (url.Values.assign v key vs) key = vs := by
  induction v with
  | nil => simp [url.Values.assign, url.Values.index]
  | cons e v ih =>
    obtain ⟨k, x⟩ := e
    by_cases h : k = key
    · simp [url.Values.assign, url.Values.index, h]
    · simp [url.Values.assign, url.Values.index, h, ih]

theorem index_assign_other (v : url.Values) (key other : String) (vs : List String)
    (h : other ≠ key) :
    url.Values.index (url.Values.assign v key vs) other = url.Values.index v other := by
  induction v with
  | nil => simp [url.Values.assign, url.Values.index, Ne.symm h]
  | cons e v ih =>
    obtain ⟨k, x⟩ := e
    by_cases hk : k = key
    · have hko : ¬ k = other := fun e => h (e ▸ hk)
      have hko2 : ¬ key = other := fun e => h e.symm
      simp [url.Values.assign, url.Values.index, hk, hko2]
    · by_cases hko : k = other
      · subst hko
        simp [url.Values.assign, url.Values.index, hk]
      · simp [url.Values.assign, url.Values.index, hk, hko, ih]

theorem index_Add (v : url.Values) (key value : String) :
    url.Values.index (url.Values.Add v key value) key = url.Values.index v key ++ [value] ∧
      ∀ other, other ≠ key →
        url.Values.index (url.Values.Add v key value) other = url.Values.index v other :=
  ⟨index_assign_same v key _, fun other h => index_assign_other v key other _ h⟩

/-- C10: `Value` of `Id(s)`, `Length(n)`, `Offset(n)` and `Param(k, x)` returns
the values with one value appended at the end of the list of its key (`id`
and `s`, `length` and the decimal text of `n`, `offset` and the decimal text
of `n`, `k` and `x`): the values already under that key stay in front, in
order, and the list of every other key is as before; two contributors on the
same key leave both values under it, in the order applied. -/
theorem value_appends_under_key (v : url.Values) :
    (∀ s, url.Values.index ((QueryParam.Id s).Value v) "id" = url.Values.index v "id" ++ [s] ∧
      ∀ k, k ≠ "id" → url.Values.index ((QueryParam.Id s).Value v) k = url.Values.index v k) ∧
    (∀ n, url.Values.index ((QueryParam.Length n).Value v) "length" =
        url.Values.index v "length" ++ [toString n] ∧
      ∀ k, k ≠ "length" →
        url.Values.index ((QueryParam.Length n).Value v) k = url.Values.index v k) ∧
    (∀ n, url.Values.index ((QueryParam.Offset n).Value v) "offset" =
        url.Values.index v "offset" ++ [toString n] ∧
      ∀ k, k ≠ "offset" →
        url.Values.index ((QueryParam.Offset n).Value v) k = url.Values.index v k) ∧
    (∀ key x, url.Values.index ((Param key x).Value v) key = url.Values.index v key ++ [x] ∧
      ∀ k, k ≠ key → url.Values.index ((Param key x).Value v) k = url.Values.index v k) ∧
    (∀ key x y, url.Values.index ((Param key y).Value ((Param key x).Value v)) key =
      url.Values.index v key ++ [x, y]) ∧
    (∀ s t, url.Values.index ((QueryParam.Id t).Value ((Param "id" s).Value v)) "id" =
      url.Values.index v "id" ++ [s, t]) ∧
    (QueryParam.Length 25).Value [] = [("length", ["25"])] ∧
    (QueryParam.Offset (-3)).Value [("offset", ["0"])] = [("offset", ["0", "-3"])] := by
  refine ⟨fun s => index_Add v "id" s, fun n => index_Add v "length" _,
    fun n => index_Add v "offset" _, fun key x => index_Add v key x, ?_, ?_, by decide, by decide⟩
  · intro key x y
    simp only [Param, QueryParam.Value]
    rw [(index_Add _ key y).1, (index_Add v key x).1, List.append_assoc]
    rfl
  · intro s t
    simp only [Param, QueryParam.Value]
    rw [(index_Add _ "id" t).1, (index_Add v "id" s).1, List.append_assoc]
    rfl

/-- C8: the call composes a request whose `RawQuery` is `Encode` of the values
obtained by applying the `QueryParam`s among the arguments, in order, to empty
values (other arguments add nothing), and hands it to the handlers and the
transport; one pair encodes as `key=value`, escaped, and several as pairs
joined by `&`; a client on `https://example.org` without pre-request handlers,
bound to `GET` and `/search` and called with `Param("q","1")`, sends the URL
`https://example.org/search?q=1`. -/
theorem query_string_of_contributors (c : Client ρ α δ ε) (method urlStr : String) (dst : δ)
    (src : List (Arg ρ α)) :
    (∃ req0, c.compose method urlStr src = Except.ok req0 ∧
      req0.URL.RawQuery = (queryOf src).Encode ∧
      Event.transport (applyReqw c.reqw req0) ∈ (c.Request method urlStr dst src).trace) ∧
    (∀ k x, url.Values.Encode ((Param k x).Value []) =
      url.QueryEscape k ++ "=" ++ url.QueryEscape x) ∧
    url.Values.Encode (queryOf (ρ := ρ) (α := α)
      [Arg.query (Param "q" "1"), Arg.str "body", Arg.query (QueryParam.Id "7"),
        Arg.query (Param "q" "a b")]) = "id=7&q=1&q=a+b" ∧
    (c.URL = exampleURL → c.reqw = [] →
      ∃ req, Event.transport req ∈
          (c.Request "GET" "/search" dst [Arg.query (Param "q" "1")]).trace ∧
        req.Method = "GET" ∧ req.URL.String = "https://example.org/search?q=1") := by
  refine ⟨⟨_, compose_eq c method urlStr src, rfl, ?_⟩, ?_, rfl, ?_⟩
  · obtain ⟨rest, h1, _⟩ :=
      Request_trace c method urlStr dst src _ (compose_eq c method urlStr src)
    rw [h1]
    simp
  · intro k x
    simp [Param, QueryParam.Value, url.Values.Add, url.Values.assign, url.Values.index,
      url.Values.Encode, url.Values.keys]
  · intro hurl hreqw
    obtain ⟨rest, h1, _⟩ := Request_trace c "GET" "/search" dst [Arg.query (Param "q" "1")] _
      (compose_eq c "GET" "/search" [Arg.query (Param "q" "1")])
    refine ⟨applyReqw c.reqw (plainRequest c "GET" "/search"
      (queryOf (ρ := ρ) (α := α) [Arg.query (Param "q" "1")]).Encode), ?_, ?_, ?_⟩
    · rw [h1]; simp
    · rw [hreqw]; rfl
    · rw [hreqw]
      simp only [applyReqw, List.foldl_nil, plainRequest, Client.newURL, hurl]
      rfl

theorem queryOf_append_bodies (src extra : List (Arg ρ α))
    (h : ∀ a ∈ extra, a.asQueryParam = none) : queryOf (src ++ extra) = queryOf src := by
  have e : extra.filterMap Arg.asQueryParam = [] := by
    rw [List.filterMap_eq_nil_iff]
    exact h
  simp [queryOf, List.filterMap_append, e]

/-- C7: `newURL` copies scheme, host and opaque part from the base and sets
the path to `path.Join` of the base path and the relative path: `path.Clean`
of the two with a `/` put between them when the base path is not empty, of
the relative path alone when only the base path is empty, and the empty path
when both are.  The loop of `path.Clean` consumes its whole input.  The path
has no two consecutive `/` and ends in `/` only when it is `/`; when neither
path has a `.` or `..` element, its elements are those of the base path
followed by those of the relative path, so no separator is missing at the
join.  The base path `/` with `/1/foo/` gives `/1/foo`, and `/api/` with
`/foo` gives `/api/foo`. -/
theorem newURL_normalized_join (c : Client ρ α δ ε) (urlStr : String) :
    (c.newURL urlStr).Scheme = c.URL.Scheme ∧
    (c.newURL urlStr).Host = c.URL.Host ∧
    (c.newURL urlStr).Opaque = c.URL.Opaque ∧
    (c.newURL urlStr).Path = path.Join [c.URL.Path, urlStr] ∧
    (c.URL.Path ≠ "" → (c.newURL urlStr).Path = path.Clean (c.URL.Path ++ "/" ++ urlStr)) ∧
    (c.URL.Path = "" → urlStr ≠ "" → (c.newURL urlStr).Path = path.Clean urlStr) ∧
    (c.URL.Path = "" → urlStr = "" → (c.newURL urlStr).Path = "") ∧
    (∀ p, ∃ rout, path.cleanRun p = some rout) ∧
    ¬ (['/', '/'] <:+: (c.newURL urlStr).Path.data) ∧
    ((c.newURL urlStr).Path.data.getLast? = some '/' → (c.newURL urlStr).Path = "/") ∧
    (path.dotFree c.URL.Path.data → path.dotFree urlStr.data →
      path.elements (c.newURL urlStr).Path.data =
        path.elements c.URL.Path.data ++ path.elements urlStr.data) ∧
    (c.URL.Path = "/" → urlStr = "/1/foo/" → (c.newURL urlStr).Path = "/1/foo") ∧
    (c.URL.Path = "/api/" → urlStr = "/foo" → (c.newURL urlStr).Path = "/api/foo") := by
  have hpath : (c.newURL urlStr).Path = ⟨path.joinChars [c.URL.Path.data, urlStr.data]⟩ := rfl
  refine ⟨rfl, rfl, rfl, rfl, ?_, ?_, ?_, ?_, ?_, ?_, ?_, ?_, ?_⟩
  · intro hb
    rw [hpath, path.joinChars_pair]
    simp [path.data_ne_nil _ hb, path.Clean]
  · intro hb hr
    rw [hpath, path.joinChars_pair]
    simp [hb, path.data_ne_nil _ hr, path.Clean]
  · intro hb hr
    rw [hpath, path.joinChars_pair]
    simp [hb, hr]
  · intro p
    obtain ⟨r, h, _⟩ := path.cleanRun_inv p
    exact ⟨r, h⟩
  · rw [hpath]
    exact (path.joinChars_normal _ _).1
  · rw [hpath]
    intro h
    rw [(path.joinChars_normal _ _).2 h]
  · intro hb hr
    rw [hpath]
    exact path.joinChars_elements _ _ hb hr
  · intro hb hr
    rw [hpath, hb, hr]
    decide
  · intro hb hr
    rw [hpath, hb, hr]
    decide

/-- C1 fails on the code: the loop attaches a body only when the request
already has one (`else if req.Body != nil`, line 116), and it starts without
one, so for every argument list the request composed has no body and content
length zero; a call with the text `hello`, with the bytes of `hi`, or with an
object and a codec sends a request without a body. -/
theorem body_argument_not_attached (c : Client ρ α δ ε) (method urlStr : String)
    (src : List (Arg ρ α)) :
    (∃ req0, c.compose method urlStr src = Except.ok req0 ∧ req0.Body = none ∧
      req0.ContentLength = 0) ∧
    (∀ a : Arg Unit String, a ∈ [Arg.str "hello", Arg.bytes [104, 105], Arg.other "obj"] →
      Client.Request (exampleClient (some textCodec) [] [] (Except.ok (answerOf 200 [])))
          "POST" "/items" [] [a] =
        { err := none
          dst := []
          trace :=
            [Event.transport (bodylessRequest "POST" "/items" ""),
             Event.decode (answerOf 200 []) [],
             Event.close (answerOf 200 [])] }) ∧
    (bodylessRequest "POST" "/items" "").Body = none ∧
    (bodylessRequest "POST" "/items" "").ContentLength = 0 := by
  refine ⟨⟨_, compose_eq c method urlStr src, rfl, rfl⟩, ?_, rfl, rfl⟩
  intro a ha
  simp only [List.mem_cons, List.mem_singleton, List.not_mem_nil, or_false] at ha
  rcases ha with rfl | rfl | rfl <;> decide

/-- C9 on the code: body-eligible values appended to an argument list leave
the composed request as it was, but the first body-eligible value is not
serialized either: a call with the texts `a` and `b` sends a request without a
body. -/
theorem first_body_value_not_serialized (c : Client ρ α δ ε) (method urlStr : String)
    (src : List (Arg ρ α)) :
    (∀ extra : List (Arg ρ α), (∀ a ∈ extra, a.asQueryParam = none) →
      c.compose method urlStr (src ++ extra) = c.compose method urlStr src) ∧
    Client.Request (exampleClient (some textCodec) [] [] (Except.ok (answerOf 200 [])))
        "POST" "/items" [] [Arg.str "a", Arg.str "b"] =
      { err := none
        dst := []
        trace :=
          [Event.transport (bodylessRequest "POST" "/items" ""),
           Event.decode (answerOf 200 []) [],
           Event.close (answerOf 200 [])] } ∧
    (bodylessRequest "POST" "/items" "").Body = none := by
  refine ⟨?_, by decide, rfl⟩
  intro extra h
  rw [compose_eq, compose_eq, queryOf_append_bodies src extra h]

end

/-- Witness of C7: the base `https://example.org/api/` and the relative path
`/foo`. -/
theorem newURL_normalized_join_witness :
    Client.newURL (exampleClient none [] [] (Except.ok (answerOf 200 []))) "/1/foo/" =
        { Scheme := "https", Opaque := "", Host := "example.org", Path := "/1/foo", RawQuery := "" } ∧
      (Client.newURL
        { exampleClient none [] [] (Except.ok (answerOf 200 [])) with
          URL := { exampleURL with Path := "/api/" } } "/foo").Path = "/api/foo" :=
  ⟨by decide,
    (newURL_normalized_join
      { exampleClient none [] [] (Except.ok (answerOf 200 [])) with
        URL := { exampleURL with Path := "/api/" } } "/foo").2.2.2.2.2.2.2.2.2.2.2.2 rfl rfl⟩

/-- Witness of C8: the client on `https://example.org`, `GET`, `/search` and
`Param("q","1")`. -/
theorem query_string_of_contributors_witness :
    ∃ req, Event.transport req ∈
        (Client.Request (exampleClient none [] [] (Except.ok (answerOf 200 [])))
          "GET" "/search" [] [Arg.query (Param "q" "1")]).trace ∧
      req.Method = "GET" ∧ req.URL.String = "https://example.org/search?q=1" :=
  (query_string_of_contributors (exampleClient none [] [] (Except.ok (answerOf 200 [])))
    "GET" "/search" [] [Arg.query (Param "q" "1")]).2.2.2 rfl rfl

/-- The model of `path.Clean` and `path.Join` on paths with `.` and `..`
elements, repeated and trailing separators. -/
theorem Clean_examples :
    path.Clean "////1/foo/" = "/1/foo" ∧
    path.Clean "a/b/../../../c/./d//" = "../c/d" ∧
    path.Clean "/a/b/../../../c/./d//" = "/c/d" ∧
    path.Clean "/.." = "/" ∧
    path.Clean "abc/.." = "." ∧
    path.Clean "" = "." ∧
    path.Join ["", "/search"] = "/search" ∧
    path.Join ["a", ""] = "a" ∧
    path.Join ["", ""] = "" ∧
    path.elements "/api//v1/".data = ["api".data, "v1".data] ∧
    path.elements (path.Join ["/api//v1/", "/users/7"]).data =
      ["api".data, "v1".data, "users".data, "7".data] := by
  decide

/-- The model of `Values.Encode` sorts the keys and escapes keys and values;
the model of `URL.String` puts scheme, host, path and query together. -/
theorem Encode_examples :
    url.Values.Encode
        (url.Values.Add (url.Values.Add (url.Values.Add [] "q" "1") "a" "x y") "q" "é&") =
      "a=x+y&q=1&q=%C3%A9%26" ∧
    url.URL.String
        { Scheme := "https", Opaque := "", Host := "example.org", Path := "/a b", RawQuery := "" } =
      "https://example.org/a%20b" := by
  decide

end Rest
